import Mathlib

/-!
Verification development for the spread-analysis scripts.

The Python sources are shallowly embedded:
* strings are `String` / `List Char`, machine integers are `Nat` / `Int`,
* timestamps are `Nat` (minutes since an epoch), prices are `Int`
  (an idealisation of float64 that keeps exact arithmetic),
* a possibly-missing price (float NaN) is `Option Int`,
* Python dictionaries and pandas frames are association lists in insertion
  order, Python lists are `List`,
* fallible operations return `Option`.

Python `sorted` is a stable comparison sort; it is modelled by
`List.insertionSort`, which is extensionally equal to any stable sort.
Python `//` and `%` (floor division, sign of the divisor) are `Int.fdiv`
and `Int.fmod`.
-/

namespace SpreadAnalyze

/-! ### ASCII character helpers

`isAsciiLetter` models the regex class `[A-Za-z]`, `isAsciiDigit` models
`\d` on ASCII input, `digitVal`/`twoDigitVal` model `int()` on a matched
digit group, and `upperChar` models `str.upper` on the ASCII letters that
the regex group `[A-Za-z]+` can produce. -/

/-- The regex character class `[A-Za-z]`. -/
def isAsciiLetter (c : Char) : Bool :=
  (65 ≤ c.toNat && c.toNat ≤ 90) || (97 ≤ c.toNat && c.toNat ≤ 122)

/-- The regex character class `\d` (ASCII digits). -/
def isAsciiDigit (c : Char) : Bool :=
  48 ≤ c.toNat && c.toNat ≤ 57

/-- Numeric value of an ASCII digit character. -/
def digitVal (c : Char) : Nat := c.toNat - 48

/-- `int()` applied to a two-character digit group. -/
def twoDigitVal (c₁ c₂ : Char) : Nat := 10 * digitVal c₁ + digitVal c₂

/-- `str.upper` on one character, for the ASCII range (the only inputs the
parser can feed it, since the symbol group of the regex is `[A-Za-z]+`). -/
def upperChar (c : Char) : Char :=
  if 97 ≤ c.toNat ∧ c.toNat ≤ 122 then Char.ofNat (c.toNat - 32) else c

/-- Digits of a natural number, most significant first, written with
bounded recursion so that the kernel can evaluate it. -/
def natDigitsGo (fuel n : Nat) : List Char :=
  match fuel with
  | 0 => []
  | fuel' + 1 =>
    if n < 10 then [Nat.digitChar n]
    else natDigitsGo fuel' (n / 10) ++ [Nat.digitChar (n % 10)]

/-- Decimal digit characters of `n`, most significant first. -/
def natDigits (n : Nat) : List Char := natDigitsGo (n + 1) n

/-- Python `f-string` formatting `f"{n:02d}"` for a nonnegative number:
the decimal digits, left padded with `0` to width at least two. -/
def pad2 (n : Nat) : List Char :=
  if n < 10 then ['0', Nat.digitChar n] else natDigits n

/-! ### Contract Code Parser (`2spread_list_generator_en.py`, `ContractHelper`) -/

/-- `ContractHelper.parse_contract`: match `^([A-Za-z]+)(\d{2})(\d{2})$`
against the code; on success return the upper-cased symbol and the two
two-digit groups as numbers, otherwise fail (`ValueError` in the source).
Because letters and digits are disjoint, the greedy group `([A-Za-z]+)`
is the longest letter prefix and the remainder must be exactly four
digit characters. -/
def parse_contract (c : String) : Option (String × Nat × Nat) :=
  let sym := c.data.takeWhile isAsciiLetter
  match c.data.dropWhile isAsciiLetter with
  | [y₁, y₂, m₁, m₂] =>
    if sym ≠ [] ∧ isAsciiDigit y₁ ∧ isAsciiDigit y₂ ∧ isAsciiDigit m₁ ∧ isAsciiDigit m₂ then
      some (String.mk (sym.map upperChar), twoDigitVal y₁ y₂, twoDigitVal m₁ m₂)
    else none
  | _ => none

/-- `ContractHelper.format_contract`:
`f"{symbol}{year%100:02d}{month:02d}"`.  `year % 100` is Python `%`, which
is nonnegative here (`Int.emod` with positive modulus); the month printed
by the program is always nonnegative, so its `02d` field is `pad2`. -/
def format_contract (symbol : String) (year month : Int) : String :=
  String.mk (symbol.data ++ pad2 (year % 100).toNat ++ pad2 month.toNat)

/-- `ContractHelper.get_adjacent_month`: shift `(year, month)` by `offset`
calendar months via `total = year*12 + month - 1 + offset`,
`new_year = total // 12`, `new_month = total % 12 + 1` (Python floor
division and nonnegative remainder). -/
def get_adjacent_month (year month offset : Int) : Int × Int :=
  let total_months := year * 12 + month - 1 + offset
  (total_months.fdiv 12, total_months.fmod 12 + 1)

/-- `ContractHelper.get_next_main`: sort the main-month list, find the
index of `month` in it (`ValueError`, i.e. `none`, when absent), step to
the cyclically next entry, and add one to the year exactly when the next
entry is numerically smaller than `month`. -/
def get_next_main (year month : Nat) (main_months : List Nat) : Option (Nat × Nat) :=
  let sorted_months := List.insertionSort (· ≤ ·) main_months
  match sorted_months.findIdx? (fun m => m == month) with
  | none => none
  | some i =>
    let next_month := sorted_months.getD ((i + 1) % sorted_months.length) 0
    some (year + (if next_month < month then 1 else 0), next_month)

/-! ### Spread Set Generator (`2spread_list_generator_en.py`, `generate_all_spreads`) -/

/-- One row appended to `all_spreads` by the source. -/
structure SpreadRow where
  spread_type : String
  main_contract : String
  contract_a : String
  contract_b : String
  spread_code : String
deriving DecidableEq

/-- Deduplication key used by
`df.drop_duplicates(subset=['spread_code', 'spread_type'])`. -/
def rowKey (r : SpreadRow) : String × String := (r.spread_code, r.spread_type)

/-- `DataFrame.drop_duplicates(keep='first')` on the key: keep a row when
its key has not been seen before, walking the list front to back. -/
def dedupByKey : List SpreadRow → List (String × String) → List SpreadRow
  | [], _ => []
  | r :: rest, seen =>
    if rowKey r ∈ seen then dedupByKey rest seen
    else r :: dedupByKey rest (rowKey r :: seen)

/-- The body of the `for main_contract in main_contracts` loop: compute the
sub-main, sub-sub-main, adjacent-month and sub-main-previous-month codes,
build the fixed list of 7 candidate definitions, and keep those whose two
legs are both in `existing`.  The two `get_next_main` calls cannot fail for
a filtered main contract (its month is a member of `main_months`); a
failure is modelled as contributing no rows. -/
def spread_candidates (existing : List String) (main_months : List Nat)
    (main_contract : String) : List SpreadRow :=
  match parse_contract main_contract with
  | none => []
  | some (symbol, year, month) =>
    match get_next_main year month main_months with
    | none => []
    | some (nmy, nmm) =>
      match get_next_main nmy nmm main_months with
      | none => []
      | some (nnmy, nnmm) =>
        let next_main := format_contract symbol nmy nmm
        let next_next_main := format_contract symbol nnmy nnmm
        let p1 := get_adjacent_month year month (-1)
        let p2 := get_adjacent_month year month (-2)
        let n1 := get_adjacent_month year month 1
        let n2 := get_adjacent_month year month 2
        let prev1 := format_contract symbol p1.1 p1.2
        let prev2 := format_contract symbol p2.1 p2.2
        let next1 := format_contract symbol n1.1 n1.2
        let next2 := format_contract symbol n2.1 n2.2
        let smp := get_adjacent_month nmy nmm (-1)
        let sub_main_prev := format_contract symbol smp.1 smp.2
        let spread_definitions : List (String × String × String) :=
          [("Main-SubMain", main_contract, next_main),
           ("Main-SubSubMain", main_contract, next_next_main),
           ("PrevMonth-Main", prev1, main_contract),
           ("Main-NextMonth", main_contract, next1),
           ("Main-NextNextMonth", main_contract, next2),
           ("Main-SubMainPrevMonth", main_contract, sub_main_prev),
           ("PrevPrevMonth-Main", prev2, main_contract)]
        (spread_definitions.filter
            (fun d => decide (d.2.1 ∈ existing) && decide (d.2.2 ∈ existing))).map
          (fun d => ⟨d.1, main_contract, d.2.1, d.2.2, d.2.1 ++ "-" ++ d.2.2⟩)

/-- `all_spreads` as accumulated by the source before deduplication: the
contracts whose parsed month is a main month, each expanded to its
surviving candidate rows, in input iteration order. -/
def all_spreads_raw (existing : List String) (main_months : List Nat) : List SpreadRow :=
  let main_contracts := existing.filter (fun c =>
    match parse_contract c with
    | some (_, _, month) => decide (month ∈ main_months)
    | none => false)
  main_contracts.flatMap (spread_candidates existing main_months)

/-- `generate_all_spreads` (the returned dataframe; file output is I/O and
out of scope): the raw rows with later duplicates of a
`(spread_code, spread_type)` key dropped. -/
def generate_all_spreads (existing : List String) (main_months : List Nat) : List SpreadRow :=
  dedupByKey (all_spreads_raw existing main_months) []

/-! ### Time Alignment Engine (`single_spread/normal/spread_calculator.py`) -/

/-- `find_common_timeframe`: `[]` for an empty dict; otherwise seed a set
with the first entry's timestamps, intersect it with every entry's
timestamp set, and return the ascending sort of the resulting set.
A Python `set` is modelled as a duplicate-free list whose order is
irrelevant here because the result is sorted. -/
def find_common_timeframe (data_dict : List (String × List Nat)) : List Nat :=
  match data_dict with
  | [] => []
  | (_, s₀) :: _ =>
    let common := data_dict.foldl
      (fun acc p => acc.filter (fun t => decide (t ∈ p.2))) s₀.dedup
    List.insertionSort (· ≤ ·) common

/-- Last non-missing value of a list of possibly-missing observations,
i.e. what pandas `Resampler.last` computes for one bin (it takes the last
non-null entry, and an all-null bin yields null). -/
def lastNonNull : List (Option Int) → Option Int
  | [] => none
  | x :: l =>
    match lastNonNull l with
    | some v => some v
    | none => x

/-- `resample_data`: `df.resample(freq).last().dropna()` followed by
`reset_index`, for a frequency of `freq` minutes.  Rows are binned by
`timestamp / freq` (left-closed bins labelled by their left edge), each
bin keeps the last non-missing close, bins without a non-missing close
are dropped by `dropna`, and the output is ascending in time.  The stable
sort models the time ordering pandas imposes on the index. -/
def resample_data (rows : List (Nat × Option Int)) (freq : Nat) : List (Nat × Int) :=
  let sortedRows := List.insertionSort (fun a b => a.1 ≤ b.1) rows
  let buckets := List.insertionSort (· ≤ ·) ((rows.map (fun r => r.1 / freq)).dedup)
  buckets.filterMap (fun b =>
    match lastNonNull ((sortedRows.filter (fun r => r.1 / freq == b)).map (fun r => r.2)) with
    | some v => some (b * freq, v)
    | none => none)

/-! ### Formula Evaluator (`calculate_spread`)

The source evaluates the user formula with Python `eval` over a namespace
binding each single-letter label to the numpy array `df['close'].values`.
The arithmetic fragment of that evaluation — the only fragment the
specification grants — is embedded as an expression tree over integer
arrays with numpy's broadcasting rule for binary operations: arrays of
equal length combine elementwise, a length-one array (or scalar literal)
is broadcast across the other operand, and any other length combination
raises (`ValueError: operands could not be broadcast together`), modelled
as `none`.  Division is omitted: no claim under consideration involves
it and its float semantics are not representable here. -/

inductive FormulaExpr where
  | lit (n : Int)
  | var (name : String)
  | add (a b : FormulaExpr)
  | sub (a b : FormulaExpr)
  | mul (a b : FormulaExpr)
deriving DecidableEq

/-- numpy's broadcasting rule for a binary elementwise operation on two
one-dimensional arrays. -/
def npBinop (f : Int → Int → Int) (xs ys : List Int) : Option (List Int) :=
  if xs.length = ys.length then some (List.zipWith f xs ys)
  else if xs.length = 1 then some (ys.map (fun y => f (xs.headD 0) y))
  else if ys.length = 1 then some (xs.map (fun x => f x (ys.headD 0)))
  else none

/-- Name lookup in the `local_vars` namespace built from `data_dict`;
an unbound name is a `NameError`, modelled as `none`. -/
def lookupVar (env : List (String × List Int)) (s : String) : Option (List Int) :=
  (env.find? (fun p => p.1 == s)).map (fun p => p.2)

/-- Evaluation of the arithmetic fragment, a scalar literal behaving as a
broadcastable length-one array. -/
def evalFormula (env : List (String × List Int)) : FormulaExpr → Option (List Int)
  | .lit n => some [n]
  | .var s => lookupVar env s
  | .add a b =>
    match evalFormula env a, evalFormula env b with
    | some xs, some ys => npBinop (· + ·) xs ys
    | _, _ => none
  | .sub a b =>
    match evalFormula env a, evalFormula env b with
    | some xs, some ys => npBinop (· - ·) xs ys
    | _, _ => none
  | .mul a b =>
    match evalFormula env a, evalFormula env b with
    | some xs, some ys => npBinop (· * ·) xs ys
    | _, _ => none

/-- `calculate_spread(data_dict, formula)`: evaluate the formula over the
close arrays of `data_dict`. -/
def calculate_spread (data_dict : List (String × List Int))
    (formula : FormulaExpr) : Option (List Int) :=
  evalFormula data_dict formula

/-- Variable labels referenced by a formula. -/
def FormulaExpr.refs : FormulaExpr → List String
  | .lit _ => []
  | .var s => [s]
  | .add a b => a.refs ++ b.refs
  | .sub a b => a.refs ++ b.refs
  | .mul a b => a.refs ++ b.refs

/-! ### Spread Batch Calculator (`3calculate_spreads.py`, `calculate_spread_prices`) -/

/-- A spread definition row of the inventory file. -/
structure SpreadDef where
  spread_code : String
  contract_a : String
  contract_b : String
deriving DecidableEq

/-- `table[name]` on a wide table held as columns in insertion order. -/
def getCol (cols : List (String × List Int)) (name : String) : Option (List Int) :=
  (cols.find? (fun p => p.1 == name)).map (fun p => p.2)

/-- `result_df[name] = v`: pandas column assignment replaces an existing
column in place and otherwise appends a new last column. -/
def setCol (cols : List (String × List Int)) (name : String) (v : List Int) :
    List (String × List Int) :=
  if cols.any (fun p => p.1 == name) then
    cols.map (fun p => if p.1 == name then (name, v) else p)
  else cols ++ [(name, v)]

/-- `calculate_spread_prices` (the returned dataframe; progress printing
and file I/O are out of scope): start from a frame holding the price
table's `timestamp` column (`none` when the table lacks one — `KeyError`
in the source), then for each definition in order assign
`result[spread_code] = table[contract_a] - table[contract_b]` when both
contracts are columns of the table, and skip the definition otherwise. -/
def calculate_spread_prices (spreads : List SpreadDef)
    (price_data : List (String × List Int)) : Option (List (String × List Int)) :=
  match getCol price_data "timestamp" with
  | none => none
  | some ts =>
    some (spreads.foldl
      (fun acc d =>
        match getCol price_data d.contract_a, getCol price_data d.contract_b with
        | some a, some b => setCol acc d.spread_code (List.zipWith (· - ·) a b)
        | _, _ => acc)
      [("timestamp", ts)])

/-- A string matching the contract-code regex `^[A-Za-z]+\d{2}\d{2}$`:
a nonempty run of ASCII letters followed by exactly four ASCII digits. -/
def matchesContractPattern (c : String) : Prop :=
  ∃ sym y₁ y₂ m₁ m₂, c.data = sym ++ [y₁, y₂, m₁, m₂] ∧ sym ≠ [] ∧
    (∀ a ∈ sym, isAsciiLetter a) ∧
    isAsciiDigit y₁ ∧ isAsciiDigit y₂ ∧ isAsciiDigit m₁ ∧ isAsciiDigit m₂

/-! ## Helper lemmas -/

theorem char_toNat_ofNat {n : Nat} (h : n < 55296) : (Char.ofNat n).toNat = n := by
  unfold Char.ofNat
  rw [dif_pos (Or.inl h : n.isValidChar)]
  rfl

theorem char_eq_of_toNat_eq {a b : Char} (h : a.toNat = b.toNat) : a = b :=
  Char.eq_of_val_eq (UInt32.ext h)

@[simp]
theorem isAsciiLetter_iff {c : Char} :
    isAsciiLetter c = true ↔ (65 ≤ c.toNat ∧ c.toNat ≤ 90) ∨ (97 ≤ c.toNat ∧ c.toNat ≤ 122) := by
  simp [isAsciiLetter]

@[simp]
theorem isAsciiDigit_iff {c : Char} :
    isAsciiDigit c = true ↔ 48 ≤ c.toNat ∧ c.toNat ≤ 57 := by
  simp [isAsciiDigit]

theorem upperChar_toNat (c : Char) :
    (upperChar c).toNat = if 97 ≤ c.toNat ∧ c.toNat ≤ 122 then c.toNat - 32 else c.toNat := by
  unfold upperChar
  split
  · next hc => exact char_toNat_ofNat (by omega)
  · rfl

theorem upperChar_idem (c : Char) : upperChar (upperChar c) = upperChar c := by
  apply char_eq_of_toNat_eq
  conv_lhs => rw [upperChar_toNat, upperChar_toNat]
  rw [upperChar_toNat]
  split_ifs <;> omega

theorem isAsciiLetter_upperChar {c : Char} (h : isAsciiLetter c) :
    isAsciiLetter (upperChar c) := by
  rw [isAsciiLetter_iff] at h ⊢
  rw [upperChar_toNat]
  split_ifs <;> omega

theorem not_isAsciiLetter_of_isAsciiDigit {c : Char} (h : isAsciiDigit c) :
    ¬ isAsciiLetter c = true := by
  rw [isAsciiDigit_iff] at h
  rw [isAsciiLetter_iff]
  omega

theorem digitVal_le_of_isAsciiDigit {c : Char} (h : isAsciiDigit c) : digitVal c ≤ 9 := by
  rw [isAsciiDigit_iff] at h
  unfold digitVal
  omega

theorem digitChar_isAsciiDigit {d : Nat} (h : d < 10) :
    isAsciiDigit (Nat.digitChar d) = true := by
  interval_cases d <;> decide

theorem digitVal_digitChar {d : Nat} (h : d < 10) : digitVal (Nat.digitChar d) = d := by
  interval_cases d <;> decide

theorem natDigitsGo_of_lt_ten {fuel n : Nat} (h : n < 10) (hf : 0 < fuel) :
    natDigitsGo fuel n = [Nat.digitChar n] := by
  cases fuel with
  | zero => omega
  | succ f => unfold natDigitsGo; rw [if_pos h]

theorem pad2_eq_two_digits {n : Nat} (h : n ≤ 99) :
    pad2 n = [Nat.digitChar (n / 10), Nat.digitChar (n % 10)] := by
  unfold pad2
  split
  · next h10 =>
    have hq : n / 10 = 0 := by omega
    have hr : n % 10 = n := by omega
    rw [hq, hr]
    rfl
  · next h10 =>
    unfold natDigits
    have hn : ¬ n < 10 := h10
    conv_lhs => rw [natDigitsGo]
    rw [if_neg hn, natDigitsGo_of_lt_ten (by omega) (by omega)]
    rfl

theorem parse_contract_decomp {sym : List Char} {y₁ y₂ m₁ m₂ : Char}
    (hsym : sym ≠ []) (hletters : ∀ a ∈ sym, isAsciiLetter a)
    (h₁ : isAsciiDigit y₁) (h₂ : isAsciiDigit y₂)
    (h₃ : isAsciiDigit m₁) (h₄ : isAsciiDigit m₂) :
    parse_contract (String.mk (sym ++ [y₁, y₂, m₁, m₂])) =
      some (String.mk (sym.map upperChar), twoDigitVal y₁ y₂, twoDigitVal m₁ m₂) := by
  have hdigit : isAsciiLetter y₁ = false :=
    Bool.eq_false_iff.mpr (not_isAsciiLetter_of_isAsciiDigit h₁)
  unfold parse_contract
  show (let s := (sym ++ [y₁, y₂, m₁, m₂]).takeWhile isAsciiLetter; _) = _
  rw [List.takeWhile_append_of_pos hletters, List.dropWhile_append_of_pos hletters]
  rw [List.takeWhile_cons, List.dropWhile_cons, hdigit]
  simp only [Bool.false_eq_true, if_false, List.append_nil]
  rw [if_pos ⟨hsym, h₁, h₂, h₃, h₄⟩]

/-- C6: for every string matching `^[A-Za-z]+\d{2}\d{2}$`, `parse_contract`
succeeds with the upper-cased symbol and the two-digit year and month, and
the code round-trips losslessly: parsing the result of
`format_contract` applied to the parsed fields gives the same parse. -/
theorem parse_format_roundtrip (c : String) (h : matchesContractPattern c) :
    ∃ s y m, parse_contract c = some (s, y, m) ∧ y ≤ 99 ∧ m ≤ 99 ∧
      parse_contract (format_contract s (y : Int) (m : Int)) = some (s, y, m) := by
  obtain ⟨sym, y₁, y₂, m₁, m₂, hdecomp, hsym, hletters, h₁, h₂, h₃, h₄⟩ := h
  obtain ⟨cs⟩ := c
  simp only [] at hdecomp
  subst hdecomp
  set y := twoDigitVal y₁ y₂ with hy
  set m := twoDigitVal m₁ m₂ with hm
  have hy99 : y ≤ 99 := by
    have := digitVal_le_of_isAsciiDigit h₁
    have := digitVal_le_of_isAsciiDigit h₂
    rw [hy]
    unfold twoDigitVal
    omega
  have hm99 : m ≤ 99 := by
    have := digitVal_le_of_isAsciiDigit h₃
    have := digitVal_le_of_isAsciiDigit h₄
    rw [hm]
    unfold twoDigitVal
    omega
  refine ⟨String.mk (sym.map upperChar), y, m,
    parse_contract_decomp hsym hletters h₁ h₂ h₃ h₄, hy99, hm99, ?_⟩
  have hemod : ((y : Int) % 100).toNat = y := by omega
  have hmtoNat : ((m : Int)).toNat = m := by omega
  have hformat :
      format_contract (String.mk (sym.map upperChar)) (y : Int) (m : Int) =
        String.mk (sym.map upperChar ++
          [Nat.digitChar (y / 10), Nat.digitChar (y % 10),
           Nat.digitChar (m / 10), Nat.digitChar (m % 10)]) := by
    unfold format_contract
    apply String.ext
    show sym.map upperChar ++ pad2 ((y : Int) % 100).toNat ++ pad2 ((m : Int)).toNat = _
    rw [hemod, hmtoNat, pad2_eq_two_digits hy99, pad2_eq_two_digits hm99]
    simp
  rw [hformat]
  rw [parse_contract_decomp (by simpa using hsym)
    (by
      intro a ha
      obtain ⟨b, hb, rfl⟩ := List.mem_map.mp ha
      exact isAsciiLetter_upperChar (hletters b hb))
    (digitChar_isAsciiDigit (by omega)) (digitChar_isAsciiDigit (by omega))
    (digitChar_isAsciiDigit (by omega)) (digitChar_isAsciiDigit (by omega))]
  have hmapidem : (sym.map upperChar).map upperChar = sym.map upperChar := by
    rw [List.map_map]
    exact List.map_congr_left (fun a _ => upperChar_idem a)
  rw [hmapidem]
  have hyval : twoDigitVal (Nat.digitChar (y / 10)) (Nat.digitChar (y % 10)) = y := by
    unfold twoDigitVal
    rw [digitVal_digitChar (by omega), digitVal_digitChar (by omega)]
    omega
  have hmval : twoDigitVal (Nat.digitChar (m / 10)) (Nat.digitChar (m % 10)) = m := by
    unfold twoDigitVal
    rw [digitVal_digitChar (by omega), digitVal_digitChar (by omega)]
    omega
  rw [hyval, hmval]

/-- Witness for `parse_format_roundtrip` at the concrete code `"i2501"`. -/
theorem parse_format_roundtrip_witness :
    ∃ s y m, parse_contract "i2501" = some (s, y, m) ∧ y ≤ 99 ∧ m ≤ 99 ∧
      parse_contract (format_contract s (y : Int) (m : Int)) = some (s, y, m) :=
  parse_format_roundtrip "i2501"
    ⟨['i'], '2', '5', '0', '1', rfl, by decide, by decide, by decide, by decide,
      by decide, by decide⟩

/-- C7: shifting a calendar month by `k` and then by `-k` returns to the
original pair (for a calendar month `1 ≤ month ≤ 12` as in the data
model), and `get_adjacent_month` is exactly the linear transform
`total = year*12 + (month-1) + offset`, `(total fdiv 12, total fmod 12 + 1)`. -/
theorem adjacent_month_roundtrip (year month offset : Int)
    (h₁ : 1 ≤ month) (h₂ : month ≤ 12) :
    get_adjacent_month (get_adjacent_month year month offset).1
        (get_adjacent_month year month offset).2 (-offset) = (year, month) ∧
    get_adjacent_month year month offset =
      (Int.fdiv (year * 12 + (month - 1) + offset) 12,
       Int.fmod (year * 12 + (month - 1) + offset) 12 + 1) := by
  have hd : ∀ a : Int, Int.fdiv a 12 = a / 12 := fun a => Int.fdiv_eq_ediv a (by omega)
  have hm : ∀ a : Int, Int.fmod a 12 = a % 12 := fun a => Int.fmod_eq_emod a (by omega)
  constructor
  · unfold get_adjacent_month
    simp only [hd, hm, Prod.mk.injEq]
    constructor <;> omega
  · have harg : year * 12 + month - 1 + offset = year * 12 + (month - 1) + offset := by ring
    unfold get_adjacent_month
    rw [harg]

/-- Witness for `adjacent_month_roundtrip` at `(2024, 12)` with offset `7`. -/
theorem adjacent_month_roundtrip_witness :
    get_adjacent_month (get_adjacent_month 2024 12 7).1
      (get_adjacent_month 2024 12 7).2 (-7) = (2024, 12) :=
  (adjacent_month_roundtrip 2024 12 7 (by norm_num) (by norm_num)).1

theorem mem_foldl_filter (L : List (String × List Nat)) (acc : List Nat) (t : Nat) :
    t ∈ L.foldl (fun acc p => acc.filter (fun t => decide (t ∈ p.2))) acc ↔
      t ∈ acc ∧ ∀ p ∈ L, t ∈ p.2 := by
  induction L generalizing acc with
  | nil => simp
  | cons hd tl ih =>
    rw [List.foldl_cons, ih]
    simp only [List.mem_filter, List.mem_cons, decide_eq_true_eq]
    constructor
    · rintro ⟨⟨h₁, h₂⟩, h₃⟩
      exact ⟨h₁, by rintro p (rfl | hp); exacts [h₂, h₃ p hp]⟩
    · rintro ⟨h₁, h₂⟩
      exact ⟨⟨h₁, h₂ hd (Or.inl rfl)⟩, fun p hp => h₂ p (Or.inr hp)⟩

theorem nodup_foldl_filter (L : List (String × List Nat)) (acc : List Nat)
    (h : acc.Nodup) :
    (L.foldl (fun acc p => acc.filter (fun t => decide (t ∈ p.2))) acc).Nodup := by
  induction L generalizing acc with
  | nil => exact h
  | cons hd tl ih => exact ih _ (h.filter _)

theorem find_common_timeframe_sorted_lt (data_dict : List (String × List Nat)) :
    List.Sorted (· < ·) (find_common_timeframe data_dict) := by
  match data_dict with
  | [] => simp [find_common_timeframe]
  | (k, s₀) :: tl =>
    unfold find_common_timeframe
    apply List.Sorted.lt_of_le (List.sorted_insertionSort _ _)
    rw [(List.perm_insertionSort _ _).nodup_iff]
    exact nodup_foldl_filter _ _ (List.nodup_dedup s₀)

theorem find_common_timeframe_mem (data_dict : List (String × List Nat))
    (hne : data_dict ≠ []) (t : Nat) :
    t ∈ find_common_timeframe data_dict ↔ ∀ p ∈ data_dict, t ∈ p.2 := by
  match data_dict with
  | (k, s₀) :: tl =>
    unfold find_common_timeframe
    rw [List.mem_insertionSort, mem_foldl_filter, List.mem_dedup]
    constructor
    · exact fun h => h.2
    · exact fun h => ⟨(h (k, s₀) (List.mem_cons_self _ _) : t ∈ s₀), h⟩

/-- C1: for a non-empty mapping the common timeframe is exactly the set of
timestamps present in every series, listed in ascending order; for the
empty mapping it is empty; and for a single series whose timestamps are
strictly increasing (the MarketSeries invariant) it is that series' own
timestamp sequence. -/
theorem find_common_timeframe_spec (data_dict : List (String × List Nat))
    (a : String) (s : List Nat) :
    (data_dict ≠ [] →
      (∀ t, t ∈ find_common_timeframe data_dict ↔ ∀ p ∈ data_dict, t ∈ p.2) ∧
      List.Sorted (· < ·) (find_common_timeframe data_dict)) ∧
    find_common_timeframe [] = [] ∧
    (List.Sorted (· < ·) s → find_common_timeframe [(a, s)] = s) := by
  refine ⟨fun hne => ⟨find_common_timeframe_mem data_dict hne,
    find_common_timeframe_sorted_lt data_dict⟩, rfl, fun hs => ?_⟩
  show List.insertionSort (fun x1 x2 => x1 ≤ x2)
    (List.foldl (fun acc p => List.filter (fun t => decide (t ∈ p.2)) acc)
      s.dedup [(a, s)]) = s
  rw [List.foldl_cons, List.foldl_nil, hs.nodup.dedup,
    List.filter_eq_self.mpr (fun x hx => decide_eq_true hx),
    List.Sorted.insertionSort_eq hs.le_of_lt]

/-- Witness for `find_common_timeframe_spec`: membership characterisation
on a two-series mapping, and the identity on a single sorted series. -/
theorem find_common_timeframe_spec_witness :
    (∀ t, t ∈ find_common_timeframe [("A", [3, 1, 2]), ("B", [2, 3])] ↔
      ∀ p ∈ [("A", [3, 1, 2]), ("B", [2, 3])], t ∈ p.2) ∧
    find_common_timeframe [("A", [1, 2])] = [1, 2] := by
  have h := find_common_timeframe_spec [("A", [3, 1, 2]), ("B", [2, 3])] "A" [1, 2]
  exact ⟨(h.1 (by decide)).1, h.2.2 (by decide)⟩

/-- C10: the common timeframe of a non-empty mapping is strictly
increasing and duplicate-free, even when an input series has duplicate or
unsorted timestamps, because it is produced by sorting a set. -/
theorem find_common_timeframe_strict_nodup (data_dict : List (String × List Nat))
    (_hne : data_dict ≠ []) :
    List.Sorted (· < ·) (find_common_timeframe data_dict) ∧
    (find_common_timeframe data_dict).Nodup :=
  ⟨find_common_timeframe_sorted_lt data_dict,
    (find_common_timeframe_sorted_lt data_dict).nodup⟩

/-- Witness for `find_common_timeframe_strict_nodup` on a series with
duplicated and unsorted timestamps. -/
theorem find_common_timeframe_strict_nodup_witness :
    List.Sorted (· < ·) (find_common_timeframe [("A", [2, 2, 1, 3])]) ∧
    (find_common_timeframe [("A", [2, 2, 1, 3])]).Nodup :=
  find_common_timeframe_strict_nodup [("A", [2, 2, 1, 3])] (by decide)

theorem npBinop_length {f : Int → Int → Int} {xs ys r : List Int}
    (h : npBinop f xs ys = some r) :
    (xs.length ≠ 1 → r.length = xs.length) ∧ (ys.length ≠ 1 → r.length = ys.length) := by
  unfold npBinop at h
  split_ifs at h with h₁ h₂ h₃
  · injection h with h
    subst h
    rw [List.length_zipWith]
    omega
  · injection h with h
    subst h
    rw [List.length_map]
    omega
  · injection h with h
    subst h
    rw [List.length_map]
    omega

theorem npBinop_none {f : Int → Int → Int} {xs ys : List Int}
    (hne : xs.length ≠ ys.length) (h₁ : xs.length ≠ 1) (h₂ : ys.length ≠ 1) :
    npBinop f xs ys = none := by
  unfold npBinop
  rw [if_neg hne, if_neg h₁, if_neg h₂]

theorem evalFormula_length_of_ref (env : List (String × List Int)) (e : FormulaExpr)
    (s : String) (xs : List Int) (hs : lookupVar env s = some xs)
    (hx : xs.length ≠ 1) :
    s ∈ e.refs → ∀ r, evalFormula env e = some r → r.length = xs.length := by
  induction e with
  | lit n => simp [FormulaExpr.refs]
  | var t =>
    intro hmem r hr
    simp only [FormulaExpr.refs, List.mem_singleton] at hmem
    subst hmem
    rw [evalFormula, hs] at hr
    injection hr with hr
    rw [← hr]
  | add a b iha ihb =>
    intro hmem r hr
    rw [evalFormula] at hr
    cases ha : evalFormula env a with
    | none => rw [ha] at hr; exact absurd hr (by simp)
    | some ra =>
      cases hb : evalFormula env b with
      | none => rw [ha, hb] at hr; exact absurd hr (by simp)
      | some rb =>
        rw [ha, hb] at hr
        rcases List.mem_append.mp (by simpa [FormulaExpr.refs] using hmem) with hm | hm
        · have hra := iha hm ra ha
          exact hra ▸ (npBinop_length hr).1 (hra ▸ hx)
        · have hrb := ihb hm rb hb
          exact hrb ▸ (npBinop_length hr).2 (hrb ▸ hx)
  | sub a b iha ihb =>
    intro hmem r hr
    rw [evalFormula] at hr
    cases ha : evalFormula env a with
    | none => rw [ha] at hr; exact absurd hr (by simp)
    | some ra =>
      cases hb : evalFormula env b with
      | none => rw [ha, hb] at hr; exact absurd hr (by simp)
      | some rb =>
        rw [ha, hb] at hr
        rcases List.mem_append.mp (by simpa [FormulaExpr.refs] using hmem) with hm | hm
        · have hra := iha hm ra ha
          exact hra ▸ (npBinop_length hr).1 (hra ▸ hx)
        · have hrb := ihb hm rb hb
          exact hrb ▸ (npBinop_length hr).2 (hrb ▸ hx)
  | mul a b iha ihb =>
    intro hmem r hr
    rw [evalFormula] at hr
    cases ha : evalFormula env a with
    | none => rw [ha] at hr; exact absurd hr (by simp)
    | some ra =>
      cases hb : evalFormula env b with
      | none => rw [ha, hb] at hr; exact absurd hr (by simp)
      | some rb =>
        rw [ha, hb] at hr
        rcases List.mem_append.mp (by simpa [FormulaExpr.refs] using hmem) with hm | hm
        · have hra := iha hm ra ha
          exact hra ▸ (npBinop_length hr).1 (hra ▸ hx)
        · have hrb := ihb hm rb hb
          exact hrb ▸ (npBinop_length hr).2 (hrb ▸ hx)

/-- C2 counterexample: with `A` of length 3 and `B` of length 1 the two
referenced arrays have different lengths, yet evaluation returns a result
(numpy broadcasts the length-one array across the other operand) instead
of failing as the claim requires. -/
theorem calculate_spread_broadcast_counterexample :
    lookupVar [("A", [1, 2, 3]), ("B", [7])] "A" = some [1, 2, 3] ∧
    lookupVar [("A", [1, 2, 3]), ("B", [7])] "B" = some [7] ∧
    (3 : Nat) ≠ 1 ∧
    calculate_spread [("A", [1, 2, 3]), ("B", [7])]
      (.sub (.var "A") (.var "B")) = some [-6, -5, -4] := by
  decide

/-- C2 (amended): if two arrays referenced by the formula have different
lengths and neither has length one, evaluation fails (returns no result)
rather than silently truncating or padding; a length-one array is instead
broadcast elementwise across the other operand, numpy's broadcasting rule. -/
theorem calculate_spread_length_mismatch (env : List (String × List Int))
    (e : FormulaExpr) (a b : String) (xs ys : List Int)
    (ha : lookupVar env a = some xs) (hb : lookupVar env b = some ys)
    (hae : a ∈ e.refs) (hbe : b ∈ e.refs)
    (hx : xs.length ≠ 1) (hy : ys.length ≠ 1)
    (hne : xs.length ≠ ys.length) :
    calculate_spread env e = none := by
  cases hr : calculate_spread env e with
  | none => rfl
  | some r =>
    have h₁ := evalFormula_length_of_ref env e a xs ha hx hae r hr
    have h₂ := evalFormula_length_of_ref env e b ys hb hy hbe r hr
    omega

/-- Witness for `calculate_spread_length_mismatch`: `A` of length 3 and
`B` of length 2 under `A - B`, the specification's own example. -/
theorem calculate_spread_length_mismatch_witness :
    calculate_spread [("A", [1, 2, 3]), ("B", [7, 8])]
      (.sub (.var "A") (.var "B")) = none :=
  calculate_spread_length_mismatch [("A", [1, 2, 3]), ("B", [7, 8])]
    (.sub (.var "A") (.var "B")) "A" "B" [1, 2, 3] [7, 8]
    (by decide) (by decide) (by decide) (by decide)
    (by decide) (by decide) (by decide)

theorem setCol_fresh {cols : List (String × List Int)} {name : String} {v : List Int}
    (h : ∀ p ∈ cols, p.1 ≠ name) : setCol cols name v = cols ++ [(name, v)] := by
  unfold setCol
  rw [if_neg]
  simp only [List.any_eq_true, beq_iff_eq, not_exists, not_and]
  exact h

theorem foldl_setCol_fresh (spreads : List SpreadDef)
    (price : List (String × List Int)) (acc : List (String × List Int))
    (hnd : (spreads.map (fun d => d.spread_code)).Nodup)
    (hfresh : ∀ d ∈ spreads, ∀ p ∈ acc, p.1 ≠ d.spread_code) :
    spreads.foldl
      (fun acc d =>
        match getCol price d.contract_a, getCol price d.contract_b with
        | some a, some b => setCol acc d.spread_code (List.zipWith (· - ·) a b)
        | _, _ => acc)
      acc =
    acc ++ spreads.filterMap (fun d =>
      match getCol price d.contract_a, getCol price d.contract_b with
      | some a, some b => some (d.spread_code, List.zipWith (· - ·) a b)
      | _, _ => none) := by
  induction spreads generalizing acc with
  | nil => simp
  | cons d rest ih =>
    rw [List.map_cons, List.nodup_cons] at hnd
    rw [List.foldl_cons, List.filterMap_cons]
    cases ha : getCol price d.contract_a with
    | none =>
      simp only [ha]
      exact ih _ hnd.2 (fun d' hd' p hp => hfresh d' (List.mem_cons_of_mem d hd') p hp)
    | some a =>
      cases hb : getCol price d.contract_b with
      | none =>
        simp only [ha, hb]
        exact ih _ hnd.2 (fun d' hd' p hp => hfresh d' (List.mem_cons_of_mem d hd') p hp)
      | some b =>
        simp only [ha, hb]
        rw [setCol_fresh (fun p hp => hfresh d (List.mem_cons_self d rest) p hp)]
        rw [ih _ hnd.2 ?_]
        · simp
        · intro d' hd' p hp
          rcases List.mem_append.mp hp with hp | hp
          · exact hfresh d' (List.mem_cons_of_mem d hd') p hp
          · rw [List.mem_singleton] at hp
            subst hp
            intro hcontra
            apply hnd.1
            have heq : d.spread_code = d'.spread_code := hcontra
            rw [heq]
            exact List.mem_map_of_mem (fun d => d.spread_code) hd'

/-- C3 counterexample: two definitions sharing the spread code `X` are
both computable from the table, but pandas column assignment overwrites
the first result column, so the output gains one column for two
successfully computed definitions instead of one column each. -/
theorem calculate_spread_prices_counterexample :
    (getCol [("timestamp", [0, 1]), ("I2501", [10, 11]), ("I2505", [8, 9])] "I2501").isSome ∧
    (getCol [("timestamp", [0, 1]), ("I2501", [10, 11]), ("I2505", [8, 9])] "I2505").isSome ∧
    calculate_spread_prices
      [⟨"X", "I2501", "I2505"⟩, ⟨"X", "I2505", "I2501"⟩]
      [("timestamp", [0, 1]), ("I2501", [10, 11]), ("I2505", [8, 9])] =
      some [("timestamp", [0, 1]), ("X", [-2, -2])] := by
  decide

/-- C3 (amended): when the definitions carry pairwise-distinct spread
codes, none of them named `timestamp`, the batch calculator returns the
original timestamp column followed by exactly one column per successfully
computed definition in definition order, each equal to the elementwise
difference `table[contract_a] - table[contract_b]`; definitions with a
missing contract are skipped.  (With duplicate spread codes a later
definition overwrites the earlier column in place — see the
counterexample — which is the only divergence from the claim.) -/
theorem calculate_spread_prices_spec (spreads : List SpreadDef)
    (price : List (String × List Int)) (ts : List Int)
    (hts : getCol price "timestamp" = some ts)
    (hnd : (spreads.map (fun d => d.spread_code)).Nodup)
    (hno : ∀ d ∈ spreads, d.spread_code ≠ "timestamp") :
    calculate_spread_prices spreads price =
      some (("timestamp", ts) ::
        spreads.filterMap (fun d =>
          match getCol price d.contract_a, getCol price d.contract_b with
          | some a, some b => some (d.spread_code, List.zipWith (· - ·) a b)
          | _, _ => none)) := by
  have hfresh : ∀ d ∈ spreads, ∀ p ∈ [("timestamp", ts)], p.1 ≠ d.spread_code := by
    intro d hd p hp
    rw [List.mem_singleton] at hp
    subst hp
    exact fun hcontra => hno d hd hcontra.symm
  unfold calculate_spread_prices
  simp only [hts]
  rw [foldl_setCol_fresh spreads price [("timestamp", ts)] hnd hfresh]
  simp

/-- Witness for `calculate_spread_prices_spec`: the specification's own
example, where the `I2501-I2505` column equals `[2, 2]`. -/
theorem calculate_spread_prices_spec_witness :
    calculate_spread_prices [⟨"I2501-I2505", "I2501", "I2505"⟩]
      [("timestamp", [0, 1]), ("I2501", [10, 11]), ("I2505", [8, 9])] =
      some [("timestamp", [0, 1]), ("I2501-I2505", [2, 2])] :=
  (calculate_spread_prices_spec [⟨"I2501-I2505", "I2501", "I2505"⟩]
    [("timestamp", [0, 1]), ("I2501", [10, 11]), ("I2505", [8, 9])] [0, 1]
    (by decide) (by decide) (by decide)).trans (by decide)

theorem sorted_main_months (main_months : List Nat) (hnd : main_months.Nodup) :
    (List.insertionSort (· ≤ ·) main_months).Sorted (· < ·) :=
  (List.sorted_insertionSort _ _).lt_of_le
    ((List.perm_insertionSort _ _).nodup_iff.mpr hnd)

theorem sorted_getElem_lt {l : List Nat} (h : l.Sorted (· < ·)) {i j : Nat}
    (hi : i < l.length) (hj : j < l.length) (hij : i < j) : l[i] < l[j] :=
  List.pairwise_iff_getElem.mp h i j hi hj hij

theorem sorted_getElem_le {l : List Nat} (h : l.Sorted (· < ·)) {i j : Nat}
    (hi : i < l.length) (hj : j < l.length) (hij : i ≤ j) : l[i] ≤ l[j] := by
  rcases Nat.lt_or_ge i j with hlt | hge
  · exact Nat.le_of_lt (sorted_getElem_lt h hi hj hlt)
  · have : i = j := by omega
    subst this
    exact Nat.le_refl _

/-- C5: `get_next_main` fails exactly when `month` is not a member of the
main-month set; otherwise it returns the cyclically next main month (the
least member greater than `month` when one exists, else the least member
overall), with the year incremented by one exactly when the returned
month is numerically smaller than the input month; and the two concrete
evaluations of the specification hold. -/
theorem get_next_main_spec (year month : Nat) (main_months : List Nat)
    (hnd : main_months.Nodup) :
    (get_next_main year month main_months = none ↔ month ∉ main_months) ∧
    (month ∈ main_months →
      ∃ m', get_next_main year month main_months =
          some (year + (if m' < month then 1 else 0), m') ∧
        m' ∈ main_months ∧
        ((∃ x ∈ main_months, month < x) →
          month < m' ∧ ∀ x ∈ main_months, month < x → m' ≤ x) ∧
        (¬ (∃ x ∈ main_months, month < x) → ∀ x ∈ main_months, m' ≤ x)) ∧
    get_next_main 2024 1 [1, 5, 9] = some (2024, 5) ∧
    get_next_main 2024 9 [1, 5, 9] = some (2025, 1) := by
  have hperm := List.perm_insertionSort (fun x1 x2 : Nat => x1 ≤ x2) main_months
  have hslt := sorted_main_months main_months hnd
  set l := List.insertionSort (fun x1 x2 : Nat => x1 ≤ x2) main_months with hl
  refine ⟨?_, ?_, by decide, by decide⟩
  · unfold get_next_main
    rw [← hl]
    cases hidx : l.findIdx? (fun m => m == month) with
    | none =>
      simp only [hidx, true_iff]
      rw [List.findIdx?_eq_none_iff] at hidx
      intro hmem
      have := hidx month (hperm.mem_iff.mpr hmem)
      simp at this
    | some i =>
      simp only [hidx, reduceCtorEq, false_iff, not_not]
      obtain ⟨hi, hpi, -⟩ := List.findIdx?_eq_some_iff_getElem.mp hidx
      rw [beq_iff_eq] at hpi
      exact hperm.mem_iff.mp (hpi ▸ List.getElem_mem hi)
  · intro hmem
    have hmeml : month ∈ l := hperm.mem_iff.mpr hmem
    unfold get_next_main
    rw [← hl]
    cases hidx : l.findIdx? (fun m => m == month) with
    | none =>
      rw [List.findIdx?_eq_none_iff] at hidx
      have := hidx month hmeml
      simp at this
    | some i =>
      simp only [hidx]
      obtain ⟨hi, hpi, -⟩ := List.findIdx?_eq_some_iff_getElem.mp hidx
      rw [beq_iff_eq] at hpi
      have hlen : 0 < l.length := by omega
      have hmod : (i + 1) % l.length < l.length := Nat.mod_lt _ hlen
      have hgetD : l.getD ((i + 1) % l.length) 0 = l[(i + 1) % l.length] := by
        rw [List.getD_eq_getElem?_getD, List.getElem?_eq_getElem hmod]
        rfl
      refine ⟨l[(i + 1) % l.length], by rw [hgetD], ?_, ?_, ?_⟩
      · exact hperm.mem_iff.mp (List.getElem_mem hmod)
      · intro hex
        rcases Nat.lt_or_ge (i + 1) l.length with hcase | hcase
        · have hmodeq : (i + 1) % l.length = i + 1 := Nat.mod_eq_of_lt hcase
          have hlt : month < l[(i + 1) % l.length] := by
            have h1 : l[i] < l[i + 1] := sorted_getElem_lt hslt hi hcase (by omega)
            have h2 : l[(i + 1) % l.length] = l[i + 1] := by
              congr 1
            omega
          refine ⟨hlt, ?_⟩
          intro x hx hmx
          obtain ⟨j, hj, rfl⟩ := List.mem_iff_getElem.mp (hperm.mem_iff.mpr hx)
          have h2 : l[(i + 1) % l.length] = l[i + 1] := by congr 1
          rcases Nat.lt_or_ge i j with hij | hij
          · have h3 : l[i + 1] ≤ l[j] := sorted_getElem_le hslt hcase hj (by omega)
            omega
          · have h4 : l[j] ≤ l[i] := sorted_getElem_le hslt hj hi hij
            omega
        · exfalso
          obtain ⟨x, hx, hmx⟩ := hex
          obtain ⟨j, hj, rfl⟩ := List.mem_iff_getElem.mp (hperm.mem_iff.mpr hx)
          have h4 : l[j] ≤ l[i] := sorted_getElem_le hslt hj hi (by omega)
          omega
      · intro hnex
        have hcase : i + 1 = l.length := by
          by_contra hc
          have hcase : i + 1 < l.length := by omega
          apply hnex
          refine ⟨l[i + 1], hperm.mem_iff.mp (List.getElem_mem hcase), ?_⟩
          have h1 : l[i] < l[i + 1] := sorted_getElem_lt hslt hi hcase (by omega)
          omega
        intro x hx
        obtain ⟨j, hj, rfl⟩ := List.mem_iff_getElem.mp (hperm.mem_iff.mpr hx)
        have h0 : (i + 1) % l.length = 0 := by
          rw [hcase, Nat.mod_self]
        have hl0 : 0 < l.length := by omega
        have h2 : l[(i + 1) % l.length] = l[0] := by congr 1
        have h3 : l[0] ≤ l[j] := sorted_getElem_le hslt hl0 hj (by omega)
        omega

/-- Witness for `get_next_main_spec`: the specification's two concrete
evaluations for `mainMonths = [1, 5, 9]`. -/
theorem get_next_main_spec_witness :
    get_next_main 2024 1 [1, 5, 9] = some (2024, 5) ∧
    get_next_main 2024 9 [1, 5, 9] = some (2025, 1) :=
  (get_next_main_spec 2024 1 [1, 5, 9] (by decide)).2.2

theorem dedupByKey_sublist (l : List SpreadRow) (seen : List (String × String)) :
    (dedupByKey l seen).Sublist l := by
  induction l generalizing seen with
  | nil => exact List.Sublist.refl _
  | cons r rest ih =>
    simp only [dedupByKey]
    by_cases hin : rowKey r ∈ seen
    · rw [if_pos hin]
      exact (ih seen).cons r
    · rw [if_neg hin]
      exact (ih _).cons₂ r

theorem dedupByKey_pairwise (l : List SpreadRow) (seen : List (String × String)) :
    List.Pairwise (fun r s => rowKey r ≠ rowKey s) (dedupByKey l seen) ∧
    ∀ r ∈ dedupByKey l seen, rowKey r ∉ seen := by
  induction l generalizing seen with
  | nil => exact ⟨List.Pairwise.nil, by simp [dedupByKey]⟩
  | cons r rest ih =>
    simp only [dedupByKey]
    by_cases hin : rowKey r ∈ seen
    · rw [if_pos hin]
      exact ih seen
    · rw [if_neg hin]
      obtain ⟨hpw, hseen⟩ := ih (rowKey r :: seen)
      refine ⟨List.Pairwise.cons ?_ hpw, ?_⟩
      · intro s hs
        have := hseen s hs
        simp only [List.mem_cons, not_or] at this
        exact fun hc => this.1 hc.symm
      · intro s hs
        rw [List.mem_cons] at hs
        rcases hs with rfl | hs
        · exact hin
        · have := hseen s hs
          simp only [List.mem_cons, not_or] at this
          exact this.2

theorem dedupByKey_covers (l : List SpreadRow) (seen : List (String × String)) :
    ∀ r ∈ l, rowKey r ∉ seen → ∃ s ∈ dedupByKey l seen, rowKey s = rowKey r := by
  induction l generalizing seen with
  | nil => simp
  | cons a rest ih =>
    intro r hr hrs
    rw [List.mem_cons] at hr
    simp only [dedupByKey]
    by_cases hin : rowKey a ∈ seen
    · rw [if_pos hin]
      rcases hr with rfl | hr
      · exact absurd hin hrs
      · exact ih seen r hr hrs
    · rw [if_neg hin]
      rcases hr with rfl | hr
      · exact ⟨_, List.mem_cons_self _ _, rfl⟩
      · by_cases hk : rowKey r ∈ rowKey a :: seen
        · rw [List.mem_cons] at hk
          rcases hk with hk | hk
          · exact ⟨a, List.mem_cons_self _ _, hk.symm⟩
          · exact absurd hk hrs
        · obtain ⟨s, hs, hks⟩ := ih (rowKey a :: seen) r hr hk
          exact ⟨s, List.mem_cons_of_mem a hs, hks⟩

theorem dedupByKey_first (l₁ : List SpreadRow) (r : SpreadRow) (l₂ : List SpreadRow)
    (seen : List (String × String)) :
    rowKey r ∈ seen ∨ r ∈ dedupByKey (l₁ ++ r :: l₂) seen ∨
      ∃ s ∈ l₁, rowKey s = rowKey r := by
  induction l₁ generalizing seen with
  | nil =>
    rw [List.nil_append]
    simp only [dedupByKey]
    by_cases hin : rowKey r ∈ seen
    · exact Or.inl hin
    · rw [if_neg hin]
      exact Or.inr (Or.inl (List.mem_cons_self _ _))
  | cons a l₁ ih =>
    rw [List.cons_append]
    simp only [dedupByKey]
    by_cases hin : rowKey a ∈ seen
    · rw [if_pos hin]
      rcases ih seen with h | h | ⟨s, hs, hk⟩
      · exact Or.inl h
      · exact Or.inr (Or.inl h)
      · exact Or.inr (Or.inr ⟨s, List.mem_cons_of_mem a hs, hk⟩)
    · rw [if_neg hin]
      rcases ih (rowKey a :: seen) with h | h | ⟨s, hs, hk⟩
      · rw [List.mem_cons] at h
        rcases h with h | h
        · exact Or.inr (Or.inr ⟨a, List.mem_cons_self _ _, h.symm⟩)
        · exact Or.inl h
      · exact Or.inr (Or.inl (List.mem_cons_of_mem a h))
      · exact Or.inr (Or.inr ⟨s, List.mem_cons_of_mem a hs, hk⟩)

theorem spread_candidates_mem (existing : List String) (main_months : List Nat)
    (mc : String) :
    ∀ r ∈ spread_candidates existing main_months mc,
      r.contract_a ∈ existing ∧ r.contract_b ∈ existing := by
  intro r hr
  unfold spread_candidates at hr
  cases hparse : parse_contract mc with
  | none =>
    simp only [hparse] at hr
    exact absurd hr (List.not_mem_nil r)
  | some v =>
    obtain ⟨symbol, year, month⟩ := v
    simp only [hparse] at hr
    cases hnm : get_next_main year month main_months with
    | none =>
      simp only [hnm] at hr
      exact absurd hr (List.not_mem_nil r)
    | some v₂ =>
      obtain ⟨nmy, nmm⟩ := v₂
      simp only [hnm] at hr
      cases hnnm : get_next_main nmy nmm main_months with
      | none =>
        simp only [hnnm] at hr
        exact absurd hr (List.not_mem_nil r)
      | some v₃ =>
        obtain ⟨nnmy, nnmm⟩ := v₃
        simp only [hnnm] at hr
        obtain ⟨d, hd, rfl⟩ := List.mem_map.mp hr
        have hd2 := (List.mem_filter.mp hd).2
        simp only [Bool.and_eq_true, decide_eq_true_eq] at hd2
        exact hd2

theorem all_spreads_raw_mem (existing : List String) (main_months : List Nat) :
    ∀ r ∈ all_spreads_raw existing main_months,
      r.contract_a ∈ existing ∧ r.contract_b ∈ existing := by
  intro r hr
  unfold all_spreads_raw at hr
  obtain ⟨mc, hmc, hr⟩ := List.mem_flatMap.mp hr
  exact spread_candidates_mem existing main_months mc r hr

/-- C4: every generated spread definition has both legs present in the
contract inventory; the output is the raw candidate list deduplicated on
`(spread_code, spread_type)` — pairwise-distinct keys, a subsequence of
the raw list (so first-seen order is preserved), covering every raw key,
and dropping a raw row only when an earlier row carries the same key; and
in the specification's concrete scenario the `Main-SubMain` spread for
`I2501` is `(I2501, I2505)` and the `PrevMonth-Main` spread is
`(I2412, I2501)`. -/
theorem generate_all_spreads_spec (existing : List String) (main_months : List Nat) :
    (∀ r ∈ generate_all_spreads existing main_months,
      r.contract_a ∈ existing ∧ r.contract_b ∈ existing) ∧
    List.Pairwise (fun r s => rowKey r ≠ rowKey s)
      (generate_all_spreads existing main_months) ∧
    (generate_all_spreads existing main_months).Sublist
      (all_spreads_raw existing main_months) ∧
    (∀ r ∈ all_spreads_raw existing main_months,
      ∃ s ∈ generate_all_spreads existing main_months, rowKey s = rowKey r) ∧
    (∀ l₁ r l₂, all_spreads_raw existing main_months = l₁ ++ r :: l₂ →
      r ∈ generate_all_spreads existing main_months ∨
        ∃ s ∈ l₁, rowKey s = rowKey r) ∧
    (⟨"Main-SubMain", "I2501", "I2501", "I2505", "I2501-I2505"⟩ : SpreadRow) ∈
      generate_all_spreads
        ["I2409", "I2410", "I2411", "I2412", "I2501", "I2505", "I2509"] [1, 5, 9] ∧
    (⟨"PrevMonth-Main", "I2501", "I2412", "I2501", "I2412-I2501"⟩ : SpreadRow) ∈
      generate_all_spreads
        ["I2409", "I2410", "I2411", "I2412", "I2501", "I2505", "I2509"] [1, 5, 9] := by
  refine ⟨?_, (dedupByKey_pairwise _ []).1, dedupByKey_sublist _ [],
    ?_, ?_, by decide, by decide⟩
  · intro r hr
    exact all_spreads_raw_mem existing main_months r
      ((dedupByKey_sublist _ []).mem hr)
  · intro r hr
    exact dedupByKey_covers _ [] r hr (by simp)
  · intro l₁ r l₂ heq
    have := dedupByKey_first l₁ r l₂ []
    rw [← heq] at this
    rcases this with h | h | h
    · exact absurd h (by simp)
    · exact Or.inl h
    · exact Or.inr h

/-- Witness for `generate_all_spreads_spec`: the two concrete scenario
memberships, projected from the theorem at the scenario input. -/
theorem generate_all_spreads_spec_witness :
    (⟨"Main-SubMain", "I2501", "I2501", "I2505", "I2501-I2505"⟩ : SpreadRow) ∈
      generate_all_spreads
        ["I2409", "I2410", "I2411", "I2412", "I2501", "I2505", "I2509"] [1, 5, 9] ∧
    (⟨"PrevMonth-Main", "I2501", "I2412", "I2501", "I2412-I2501"⟩ : SpreadRow) ∈
      generate_all_spreads
        ["I2409", "I2410", "I2411", "I2412", "I2501", "I2505", "I2509"] [1, 5, 9] :=
  ⟨(generate_all_spreads_spec
      ["I2409", "I2410", "I2411", "I2412", "I2501", "I2505", "I2509"]
      [1, 5, 9]).2.2.2.2.2.1,
   (generate_all_spreads_spec
      ["I2409", "I2410", "I2411", "I2412", "I2501", "I2505", "I2509"]
      [1, 5, 9]).2.2.2.2.2.2⟩

theorem lastNonNull_eq_none_iff (l : List (Option Int)) :
    lastNonNull l = none ↔ ∀ x ∈ l, x = none := by
  induction l with
  | nil => simp [lastNonNull]
  | cons x l ih =>
    rw [show lastNonNull (x :: l) =
      (match lastNonNull l with | some v => some v | none => x) from rfl]
    constructor
    · intro h y hy
      cases hl : lastNonNull l with
      | some v => rw [hl] at h; exact absurd h (by simp)
      | none =>
        rw [hl] at h
        rcases List.mem_cons.mp hy with rfl | hy
        · cases y with
          | none => rfl
          | some w => exact absurd h (by simp)
        · exact (ih.mp hl) y hy
    · intro h
      have hx : x = none := h x (List.mem_cons_self _ _)
      have hl : lastNonNull l = none :=
        ih.mpr (fun y hy => h y (List.mem_cons_of_mem x hy))
      rw [hl, hx]

theorem lastNonNull_eq_some (l : List (Option Int)) (v : Int)
    (h : lastNonNull l = some v) :
    ∃ i, ∃ hi : i < l.length, l[i] = some v ∧
      ∀ j, ∀ hj : j < l.length, i < j → l[j] = none := by
  induction l with
  | nil => exact absurd h (by simp [lastNonNull])
  | cons x l ih =>
    rw [show lastNonNull (x :: l) =
      (match lastNonNull l with | some v => some v | none => x) from rfl] at h
    cases hl : lastNonNull l with
    | some w =>
      rw [hl] at h
      have hwv : w = v := by injection h
      subst hwv
      obtain ⟨i, hi, hget, hafter⟩ := ih hl
      refine ⟨i + 1, by simpa using hi, by simpa using hget, ?_⟩
      intro j hj hij
      match j, hj, hij with
      | j + 1, hj, hij =>
        have hjl : j < l.length := by simpa using hj
        have : l[j] = none := hafter j hjl (by omega)
        simpa using this
    | none =>
      rw [hl] at h
      cases x with
      | none => exact absurd h (by simp)
      | some w =>
        have hw : w = v := by injection h
        subst hw
        refine ⟨0, by simp, by simp, ?_⟩
        intro j hj hij
        match j, hj, hij with
        | j + 1, hj, _ =>
          have hjl : j < l.length := by simpa using hj
          have hall := (lastNonNull_eq_none_iff l).mp hl
          have hmem : l[j] ∈ l := List.getElem_mem hjl
          simpa using hall _ hmem

theorem resample_data_eq_of_sorted (rows : List (Nat × Option Int)) (freq : Nat)
    (hsorted : (rows.map (fun r => r.1)).Sorted (· < ·)) :
    resample_data rows freq =
      (List.insertionSort (· ≤ ·) ((rows.map (fun r => r.1 / freq)).dedup)).filterMap
        (fun b =>
          match lastNonNull ((rows.filter (fun r => r.1 / freq == b)).map (fun r => r.2)) with
          | some v => some (b * freq, v)
          | none => none) := by
  have hpair : rows.Sorted (fun a b => a.1 ≤ b.1) :=
    (List.pairwise_map.mp hsorted).imp (fun h => Nat.le_of_lt h)
  unfold resample_data
  rw [List.Sorted.insertionSort_eq hpair]

/-- C8: on a series with strictly increasing timestamps (the MarketSeries
invariant) and a positive frequency, resampling buckets rows into
fixed-width intervals `[b*freq, (b+1)*freq)` labelled by their left edge,
and (a) the output is strictly ascending with at most one row per bucket,
(b) every output row carries the value of the last observation of its
bucket (the latest non-missing close in that bucket — pandas `last`
skips nulls, so a missing close is no observation), and (c) every bucket
containing an observation produces a row, so buckets with none are
dropped and nothing is forward-filled. -/
theorem resample_data_spec (rows : List (Nat × Option Int)) (freq : Nat)
    (hfreq : 0 < freq) (hsorted : (rows.map (fun r => r.1)).Sorted (· < ·)) :
    List.Sorted (· < ·) ((resample_data rows freq).map (fun p => p.1)) ∧
    (∀ p ∈ resample_data rows freq,
      ∃ r ∈ rows, r.2 = some p.2 ∧ r.1 / freq = p.1 / freq ∧
        p.1 = r.1 / freq * freq ∧
        ∀ r' ∈ rows, r'.1 / freq = p.1 / freq → r'.2 ≠ none → r'.1 ≤ r.1) ∧
    (∀ r ∈ rows, r.2 ≠ none →
      ∃ p ∈ resample_data rows freq, p.1 = r.1 / freq * freq) := by
  rw [resample_data_eq_of_sorted rows freq hsorted]
  set g := fun b =>
    match lastNonNull ((rows.filter (fun r => r.1 / freq == b)).map (fun r => r.2)) with
    | some v => some (b * freq, v)
    | none => none with hg
  set buckets := List.insertionSort (· ≤ ·) ((rows.map (fun r => r.1 / freq)).dedup)
    with hbk
  have hbsorted : buckets.Sorted (· < ·) :=
    sorted_main_months _ (List.nodup_dedup _)
  have hgsome : ∀ b p, g b = some p → p.1 = b * freq ∧
      lastNonNull ((rows.filter (fun r => r.1 / freq == b)).map (fun r => r.2)) =
        some p.2 := by
    intro b p hbp
    simp only [hg] at hbp
    cases hlnn : lastNonNull ((rows.filter (fun r => r.1 / freq == b)).map (fun r => r.2)) with
    | none => rw [hlnn] at hbp; exact absurd hbp (by simp)
    | some v =>
      rw [hlnn] at hbp
      injection hbp with hbp
      subst hbp
      exact ⟨rfl, rfl⟩
  refine ⟨?_, ?_, ?_⟩
  · have hpw : List.Pairwise (fun p q : Nat × Int => p.1 < q.1) (buckets.filterMap g) := by
      refine List.Pairwise.filterMap g ?_ hbsorted
      intro b b' hbb' p hp q hq
      have h1 := hgsome b p hp
      have h2 := hgsome b' q hq
      rw [h1.1, h2.1]
      exact Nat.mul_lt_mul_of_lt_of_le hbb' (Nat.le_refl freq) hfreq
    exact List.pairwise_map.mpr hpw
  · intro p hp
    obtain ⟨b, hb, hgb⟩ := List.mem_filterMap.mp hp
    obtain ⟨hp1, hlnn⟩ := hgsome b p hgb
    obtain ⟨i, hi, hget, hafter⟩ := lastNonNull_eq_some _ _ hlnn
    have hifl : i < (rows.filter (fun r => r.1 / freq == b)).length := by
      simpa using hi
    have hget2 : (rows.filter (fun r => r.1 / freq == b))[i].2 = some p.2 := by
      simpa using hget
    have hmemf : (rows.filter (fun r => r.1 / freq == b))[i] ∈
        rows.filter (fun r => r.1 / freq == b) := List.getElem_mem hifl
    have hfeq : (rows.filter (fun r => r.1 / freq == b))[i].1 / freq = b := by
      have := (List.mem_filter.mp hmemf).2
      simpa using this
    have hp1freq : p.1 / freq = b := by
      rw [hp1]
      exact Nat.mul_div_cancel b hfreq
    refine ⟨(rows.filter (fun r => r.1 / freq == b))[i],
      List.mem_of_mem_filter hmemf, hget2, by rw [hfeq, hp1freq], by rw [hp1, hfeq], ?_⟩
    intro r' hr' hr'b hr'ne
    have hr'm : r' ∈ rows.filter (fun r => r.1 / freq == b) := by
      refine List.mem_filter.mpr ⟨hr', ?_⟩
      simp only [beq_iff_eq]
      rw [hr'b, hp1freq]
    obtain ⟨j, hj, hjr⟩ := List.mem_iff_getElem.mp hr'm
    have hji : j ≤ i := by
      by_contra hc
      have hjm : j < ((rows.filter (fun r => r.1 / freq == b)).map (fun r => r.2)).length := by
        simpa using hj
      have := hafter j hjm (by omega)
      rw [List.getElem_map] at this
      rw [hjr] at this
      exact hr'ne this
    have hflpw : (rows.filter (fun r => r.1 / freq == b)).Pairwise
        (fun a b => a.1 < b.1) := (List.pairwise_map.mp hsorted).filter _
    rcases Nat.lt_or_ge j i with hlt | hge
    · have := List.pairwise_iff_getElem.mp hflpw j i hj hifl hlt
      rw [hjr] at this
      exact Nat.le_of_lt this
    · have : j = i := by omega
      subst this
      rw [hjr]
  · intro r hr hrne
    have hbmem : r.1 / freq ∈ buckets := by
      rw [hbk, List.mem_insertionSort, List.mem_dedup]
      exact List.mem_map.mpr ⟨r, hr, rfl⟩
    have hrfl : r ∈ rows.filter (fun r' => r'.1 / freq == r.1 / freq) :=
      List.mem_filter.mpr ⟨hr, by simp⟩
    cases hlnn : lastNonNull ((rows.filter
        (fun r' => r'.1 / freq == r.1 / freq)).map (fun r => r.2)) with
    | none =>
      exfalso
      have := (lastNonNull_eq_none_iff _).mp hlnn r.2
        (List.mem_map_of_mem (fun r => r.2) hrfl)
      exact hrne this
    | some v =>
      refine ⟨(r.1 / freq * freq, v), List.mem_filterMap.mpr ⟨r.1 / freq, hbmem, ?_⟩, rfl⟩
      simp only [hg]
      rw [hlnn]

/-- Witness for `resample_data_spec`: four observations at minutes
0, 7, 16, 31 resampled to 15-minute buckets; the all-missing middle
bucket is dropped and each kept bucket carries its last observation. -/
theorem resample_data_spec_witness :
    List.Sorted (· < ·)
      ((resample_data [(0, some 5), (7, some 6), (16, none), (31, some 9)] 15).map
        (fun p => p.1)) ∧
    resample_data [(0, some 5), (7, some 6), (16, none), (31, some 9)] 15 =
      [(0, 6), (30, 9)] :=
  ⟨(resample_data_spec [(0, some 5), (7, some 6), (16, none), (31, some 9)] 15
      (by decide) (by decide)).1, by decide⟩

end SpreadAnalyze
